import Mathlib

/-!
Shallow embedding of `src/transformers/models/rwkv/convert_rwkv_checkpoint_to_hf.py`
(the RWKV checkpoint conversion script), together with theorems checking the
specification's claims about it.

Strings are modelled by `String` / `List Char`; a Python `dict` (which remembers
insertion order, updates a present key in place and appends an absent key at the
end) is modelled by an association list `List (String × α)`; tensors are opaque
values of an arbitrary type `α`.
-/

namespace RwkvConvert

/-! ## Python string primitives used by `convert_state_dict` -/

/-- Python `str.replace(pat, repl)` on character lists: replaces every
non-overlapping occurrence of `pat`, scanning left to right.  The `fuel`
argument (always instantiated with the length of the scanned list, which is an
upper bound on the number of scanning steps) makes the recursion structural.
All call sites in the source pass a non-empty literal `pat`. -/
def replaceAllL (pat repl : List Char) : Nat → List Char → List Char
  | _, [] => []
  | 0, l => l
  | fuel+1, c :: cs =>
      if pat.isPrefixOf (c :: cs) then
        repl ++ replaceAllL pat repl fuel ((c :: cs).drop pat.length)
      else
        c :: replaceAllL pat repl fuel cs

/-- Python `name.replace(pat, repl)`. -/
def pyReplace (l pat repl : List Char) : List Char :=
  replaceAllL pat repl l.length l

/-- The literal regex fragment `blocks\.` of the source's two `re.sub` patterns. -/
def blocksDot : List Char := "blocks.".data

/-- Python `re.sub(r"blocks\.(\d+)\.SEG", r"blocks.\1.REPL", name)` for a literal
segment `SEG` (the source uses `att` and `ffn`): scan left to right; at each
position try to match `blocks.` followed by a non-empty run of digits followed
by `.SEG`; on a match emit `blocks.<digits>.REPL` and continue after the match,
otherwise emit one character and move on.  Matching the maximal digit run is
equivalent to the regex engine's behaviour, because after a shorter digit run
the next character is still a digit and cannot match the literal dot.  `fuel`
(instantiated with the length of the scanned list) makes recursion structural. -/
def subBlocksL (seg repl : List Char) : Nat → List Char → List Char
  | _, [] => []
  | 0, l => l
  | fuel+1, c :: cs =>
      if blocksDot.isPrefixOf (c :: cs) then
        let rest := (c :: cs).drop blocksDot.length
        let ds := rest.takeWhile Char.isDigit
        let rest2 := rest.drop ds.length
        if (!ds.isEmpty) && ('.' :: seg).isPrefixOf rest2 then
          blocksDot ++ ds ++ '.' :: (repl ++ subBlocksL seg repl fuel (rest2.drop (seg.length + 1)))
        else
          c :: subBlocksL seg repl fuel cs
      else
        c :: subBlocksL seg repl fuel cs

/-- Python `re.sub` specialised as above, with fuel instantiated. -/
def reSubBlocks (seg repl l : List Char) : List Char :=
  subBlocksL seg repl l.length l

/-! ## The key rewriter (`convert_state_dict`, lines 49-77) -/

/-- Line 54-55: `if name.startswith("emb."): name = name.replace("emb.", "embeddings.")`. -/
def embStep (name : List Char) : List Char :=
  if ("emb.".data).isPrefixOf name then pyReplace name "emb.".data "embeddings.".data else name

/-- Line 57-58: `if name.startswith("blocks.0.ln0"): name = name.replace("blocks.0.ln0", "blocks.0.pre_ln")`. -/
def ln0Step (name : List Char) : List Char :=
  if ("blocks.0.ln0".data).isPrefixOf name then pyReplace name "blocks.0.ln0".data "blocks.0.pre_ln".data else name

/-- Line 60: `name = re.sub(r"blocks\.(\d+)\.att", r"blocks.\1.attention", name)`. -/
def attStep (name : List Char) : List Char :=
  reSubBlocks "att".data "attention".data name

/-- Line 62: `name = re.sub(r"blocks\.(\d+)\.ffn", r"blocks.\1.feed_forward", name)`. -/
def ffnStep (name : List Char) : List Char :=
  reSubBlocks "ffn".data "feed_forward".data name

/-- Line 64-65: `if name.endswith(".time_mix_k"): name = name.replace(".time_mix_k", ".time_mix_key")`. -/
def timeMixKStep (name : List Char) : List Char :=
  if (".time_mix_k".data).isSuffixOf name then pyReplace name ".time_mix_k".data ".time_mix_key".data else name

/-- Line 67-68: `if name.endswith(".time_mix_v"): name = name.replace(".time_mix_v", ".time_mix_value")`. -/
def timeMixVStep (name : List Char) : List Char :=
  if (".time_mix_v".data).isSuffixOf name then pyReplace name ".time_mix_v".data ".time_mix_value".data else name

/-- Line 70-71: `if name.endswith(".time_mix_r"): name = name.replace(".time_mix_r", ".time_mix_receptance")`. -/
def timeMixRStep (name : List Char) : List Char :=
  if (".time_mix_r".data).isSuffixOf name then pyReplace name ".time_mix_r".data ".time_mix_receptance".data else name

/-- Lines 73-74: `if name != "head.weight": name = "rwkv." + name`. -/
def headStep (name : List Char) : List Char :=
  if name ≠ "head.weight".data then "rwkv.".data ++ name else name

/-- The per-key renaming performed by the loop body of `convert_state_dict`:
the eight rewrite steps applied to one key `name`, in source order
(lines 53-74). -/
def convertNameL (name : List Char) : List Char :=
  headStep (timeMixRStep (timeMixVStep (timeMixKStep
    (ffnStep (attStep (ln0Step (embStep name)))))))

/-- String-level wrapper for the per-key renaming. -/
def convertName (name : String) : String :=
  ⟨convertNameL name.data⟩

/-- Python `d[k]` lookup on the association-list model of a dict. -/
def lookupD {α : Type} : List (String × α) → String → Option α
  | [], _ => none
  | p :: t, k => if p.1 = k then some p.2 else lookupD t k

/-- Python `d[k] = v` on a dict: if `k` is present its (first) entry is updated
in place, otherwise `(k, v)` is appended at the end. -/
def insertD {α : Type} : List (String × α) → String → α → List (String × α)
  | [], k, v => [(k, v)]
  | p :: t, k, v => if p.1 = k then (k, v) :: t else p :: insertD t k v

/-- The removal part of Python `d.pop(k)`: drop the (first) entry with key `k`. -/
def removeD {α : Type} : List (String × α) → String → List (String × α)
  | [], _ => []
  | p :: t, k => if p.1 = k then t else p :: removeD t k

/-- The keys of a dict in insertion order (`list(state_dict.keys())`, line 50). -/
def keysOf {α : Type} (d : List (String × α)) : List String :=
  d.map Prod.fst

/-- The loop of `convert_state_dict` (lines 51-76): for each `name` from the
key snapshot, `weight = state_dict.pop(name)` followed by
`state_dict[new_name] = weight`.  A `pop` on an absent key is a Python
`KeyError`, modelled as `none`. -/
def convertGo {α : Type} : List String → List (String × α) → Option (List (String × α))
  | [], d => some d
  | n :: ns, d =>
      match lookupD d n with
      | none => none
      | some w => convertGo ns (insertD (removeD d n) (convertName n) w)

/-- Whole-dict key rewriter `convert_state_dict` (lines 49-77). -/
def convert_state_dict {α : Type} (d : List (String × α)) : Option (List (String × α)) :=
  convertGo (keysOf d) d

/-! ## Configuration resolution (lines 31-47, 91-111, 186-193) -/

/-- Size-label to layer-count table (lines 31-38, insertion order preserved). -/
def NUM_HIDDEN_LAYERS_MAPPING : List (String × Nat) :=
  [("169M", 12), ("430M", 24), ("1B5", 24), ("3B", 32), ("7B", 32), ("14B", 40)]

/-- Size-label to hidden-size table (lines 40-47, name misspelt as in the source). -/
def HIDEN_SIZE_MAPPING : List (String × Nat) :=
  [("169M", 768), ("430M", 1024), ("1B5", 2048), ("3B", 2560), ("7B", 4096), ("14B", 5120)]

/-- Python `list(NUM_HIDDEN_LAYERS_MAPPING.keys())` (line 91). -/
def possible_sizes : List String :=
  NUM_HIDDEN_LAYERS_MAPPING.map Prod.fst

/-- Python `pat in s` substring containment on character lists. -/
def isSubstrL (pat : List Char) : List Char → Bool
  | [] => pat.isEmpty
  | c :: cs => pat.isPrefixOf (c :: cs) || isSubstrL pat cs

/-- Python `candidate in checkpoint_file` (line 100). -/
def isSubstr (pat s : String) : Bool :=
  isSubstrL pat.data s.data

/-- The `size` argument of `convert_rmkv_checkpoint_to_hf_format`: in the source
it is either a string label or a `(num_hidden_layers, hidden_size)` tuple
(its `None` case is modelled by wrapping in `Option`). -/
inductive SizeArg where
  | label : String → SizeArg
  | pair : Nat → Nat → SizeArg
deriving DecidableEq

/-- Exceptions that the config-building block (lines 92-111) can raise. -/
inductive ConfigError where
  /-- Python `raise ValueError(...)` with the offending description. -/
  | valueError : String → ConfigError
  /-- Python `NameError`/`UnboundLocalError`: a local variable is read at the
  `RwkvConfig(...)` call (lines 107-111) although no branch assigned it. -/
  | nameError : String → ConfigError
  /-- Python `KeyError` from a failed table subscript. -/
  | keyError : String → ConfigError
deriving DecidableEq

/-- Outcome of the config-building block: either the
`(num_hidden_layers, hidden_size)` pair stored into `RwkvConfig`, or a raised
exception. -/
inductive ConfigResult where
  | ok : Nat → Nat → ConfigResult
  | raise : ConfigError → ConfigResult
deriving DecidableEq

/-- The `for candidate in possible_sizes: if candidate in checkpoint_file:
size = candidate; break` loop (lines 99-102): first table entry, in table
order, that is a substring of the checkpoint file name. -/
def inferSize (checkpoint_file : String) : Option String :=
  possible_sizes.find? fun candidate => isSubstr candidate checkpoint_file

/-- The config-dimension resolution of `convert_rmkv_checkpoint_to_hf_format`
(lines 92-111).  On the tuple branch the tuple is unpacked; on the label branch
the source only validates the label against `possible_sizes` and assigns
neither `num_hidden_layers` nor `hidden_size`, so the `RwkvConfig(...)` call
reads an unassigned local and raises; on the inference branch both dimensions
are read from `HIDEN_SIZE_MAPPING` (lines 105-106). -/
def resolveDims (size : Option SizeArg) (checkpoint_file : String) : ConfigResult :=
  match size with
  | some (.pair num_hidden_layers hidden_size) => .ok num_hidden_layers hidden_size
  | some (.label s) =>
      if s ∈ possible_sizes then .raise (.nameError "num_hidden_layers")
      else .raise (.valueError "size should be one of possible_sizes")
  | none =>
      match inferSize checkpoint_file with
      | none => .raise (.valueError "Could not infer the size")
      | some s =>
          match lookupD HIDEN_SIZE_MAPPING s with
          | none => .raise (.keyError s)
          | some v => .ok v v

/-- The command-line arguments that feed the size resolution (lines 169-190;
`--hidden_size` defaults to 256 and `--num_hidden_layers` to 12). -/
structure CliArgs where
  size : Option String
  hidden_size : Nat
  num_hidden_layers : Nat
deriving DecidableEq

/-- Lines 187-190: `size = args.size` when a label was passed, otherwise
`size = (args.num_hidden_layers, args.hidden_size)`. -/
def mainSizeArg (a : CliArgs) : SizeArg :=
  match a.size with
  | some s => .label s
  | none => .pair a.num_hidden_layers a.hidden_size

/-! ## Index-file serialization (lines 127-132)

The shard index is produced by the external `shard_checkpoint` collaborator
(`transformers.modeling_utils`, not part of the sources under scrutiny). -/

/-- Modelled from the spec: the index produced by the external `shard_checkpoint`
collaborator, "a JSON object mapping each original (post-rewrite) parameter
name to the shard file holding it, plus aggregate metadata (e.g. total size)",
i.e. Python `{"metadata": {"total_size": n}, "weight_map": {name: shard}}`.
The weight map carries the enumeration order of the underlying dict. -/
structure ShardIndex where
  total_size : Nat
  weight_map : List (String × String)

/-- Python's string comparison: lexicographic on code points. -/
def strLeL : List Char → List Char → Bool
  | [], _ => true
  | _ :: _, [] => false
  | a :: as, b :: bs =>
      if a.toNat < b.toNat then true
      else if b.toNat < a.toNat then false
      else strLeL as bs

/-- Python `a <= b` on strings. -/
def strLe (a b : String) : Bool :=
  strLeL a.data b.data

/-- Key-sorting performed by `json.dumps(..., sort_keys=True)` on the weight
map: a stable sort of the entries by key. -/
def sortWeightMap (wm : List (String × String)) : List (String × String) :=
  List.insertionSort (fun p q => strLe p.1 q.1 = true) wm

/-- The `"weight_map"` object as serialized by `json.dumps(..., indent=2,
sort_keys=True)`: entries sorted by key, four-space (two levels deep)
indentation, closing brace at the enclosing two-space level. -/
def weightMapJson (wm : List (String × String)) : String :=
  match sortWeightMap wm with
  | [] => "\x7b\x7d"
  | fs => "\x7b\n" ++
      String.intercalate ",\n"
        (fs.map fun p => "    \"" ++ p.1 ++ "\": \"" ++ p.2 ++ "\"") ++
      "\n  \x7d"

/-- Modelled from the spec: Python `json.dumps(index, indent=2, sort_keys=True)`
(line 131) on the two-level shard index: keys sorted (`"metadata"` before
`"weight_map"`), two-space indentation per nesting level, no trailing newline
of its own. -/
def dumpsIndex (idx : ShardIndex) : String :=
  ("\x7b\n  \"metadata\": \x7b\n    \"total_size\": " ++ toString idx.total_size ++
    "\n  \x7d,\n  \"weight_map\": " ++ weightMapJson idx.weight_map) ++ "\n\x7d"

/-- Line 131: `content = json.dumps(index, indent=2, sort_keys=True) + "\n"`,
the exact bytes written to the index file. -/
def indexFileContent (idx : ShardIndex) : String :=
  dumpsIndex idx ++ "\n"

/-! ## Shard persistence and the cleanup pass (lines 124-132 and 134-146) -/

/-- Content of one file on disk: either a torch-serialized key-to-tensor
mapping, or a text file such as the JSON index. -/
inductive FileData (α : Type) where
  | tensors : List (String × α) → FileData α
  | text : String → FileData α
deriving DecidableEq

/-- The on-disk store: a mapping from path to file content. -/
abbrev FileStore (α : Type) : Type :=
  List (String × FileData α)

/-- Python `os.path.join(dir, f)` as used at lines 125 and 128, for the cases
that arise there: joining with the empty directory collapses to the bare name,
a non-empty directory prepends `dir ++ "/"` (trailing-slash and absolute-path
normalisation do not occur at these call sites). -/
def osPathJoin (dir f : String) : String :=
  if dir = "" then f else (dir ++ "/") ++ f

/-- Modelled from the spec: the fixed well-known index-file name constant
imported at line 28 from `transformers.modeling_utils` (not under the sources
at hand). -/
def WEIGHTS_INDEX_NAME : String := "pytorch_model.bin.index.json"

/-- Lines 124-132: persist each shard mapping at
`os.path.join(output_dir, shard_file)` (line 125) and then, when
`shard_checkpoint` produced an index, its serialization (`indexFileContent`)
at `os.path.join(output_dir, WEIGHTS_INDEX_NAME)` (lines 127-132).
`torch.save` and the file write are modelled as binding the path in the
store. -/
def saveShardsAndIndex {α : Type} (output_dir : String)
    (shards : List (String × List (String × α))) (index : Option ShardIndex)
    (fs : FileStore α) : FileStore α :=
  let fs1 := shards.foldl
    (fun acc p => insertD acc (osPathJoin output_dir p.1) (FileData.tensors p.2)) fs
  match index with
  | none => fs1
  | some idx => insertD fs1 (osPathJoin output_dir WEIGHTS_INDEX_NAME)
      (FileData.text (indexFileContent idx))

/-- What one iteration of the re-save loop does to the file it touches,
chosen by an adversarial out-of-memory oracle: the write-back may complete,
memory may run out before anything is written back, or memory may run out
part-way through `torch.save`, leaving unspecified content at the touched
path. -/
inductive SaveOutcome (α : Type) where
  | ok : SaveOutcome α
  | oomBeforeSave : SaveOutcome α
  | oomDuringSave : FileData α → SaveOutcome α

/-- The defensive re-save loop (lines 138 and 144-146): for each `shard_file`
of the shard dict's key list, `state_dict = torch.load(shard_file)` followed
by `torch.save({k: v.cpu().clone() for k, v in state_dict.items()},
shard_file)`.  Both calls use the bare `shard_file` name, not the
`os.path.join(output_dir, shard_file)` path where line 125 wrote.  The
external `torch.load`/`torch.save` collaborators are driven by an oracle:
loading a path with no file, or with non-torch content, raises and aborts the
loop with nothing written; otherwise the iteration's `SaveOutcome` says
whether memory runs out before the write-back (nothing written), during it
(oracle-chosen content left at the bare path), or not at all (the clone
comprehension is written back, with `cpuClone` the opaque per-tensor effect of
`v.cpu().clone()`).  No exception is caught (the source only prints the
warning of lines 135-137 beforehand), so a failure ends the run with the
store as it stands, carried by the `.error` branch. -/
def cleanupShards {α : Type} (cpuClone : α → α) (oracle : Nat → SaveOutcome α) :
    Nat → List String → FileStore α → Except (FileStore α) (FileStore α)
  | _, [], fs => .ok fs
  | i, f :: rest, fs =>
      match lookupD fs f with
      | none => .error fs
      | some (.text _) => .error fs
      | some (.tensors m) =>
          match oracle i with
          | .oomBeforeSave => .error fs
          | .oomDuringSave corrupt => .error (insertD fs f corrupt)
          | .ok => cleanupShards cpuClone oracle (i + 1) rest
              (insertD fs f (FileData.tensors (m.map fun p => (p.1, cpuClone p.2))))

/-- The on-disk store after the cleanup pass, whether it ran to completion or
aborted part-way. -/
def cleanupOutcomeStore {α : Type} : Except (FileStore α) (FileStore α) → FileStore α
  | .ok fs => fs
  | .error fs => fs

/-! ## Lemmas about the dict model -/

@[simp] lemma keysOf_nil {α : Type} : keysOf ([] : List (String × α)) = [] := rfl

@[simp] lemma keysOf_cons {α : Type} (p : String × α) (t : List (String × α)) :
    keysOf (p :: t) = p.1 :: keysOf t := rfl

lemma keysOf_append {α : Type} (l₁ l₂ : List (String × α)) :
    keysOf (l₁ ++ l₂) = keysOf l₁ ++ keysOf l₂ :=
  List.map_append _ _ _

lemma mem_keysOf_of_mem {α : Type} {d : List (String × α)} {p : String × α} (h : p ∈ d) :
    p.1 ∈ keysOf d :=
  List.mem_map_of_mem Prod.fst h

lemma lookupD_eq_some_of_mem {α : Type} {k : String} {v : α} :
    ∀ {d : List (String × α)}, (keysOf d).Nodup → (k, v) ∈ d → lookupD d k = some v := by
  intro d
  induction d with
  | nil => intro _ hm; cases hm
  | cons p t ih =>
      intro hnd hm
      simp only [keysOf_cons, List.nodup_cons] at hnd
      rcases List.mem_cons.mp hm with he | ht
      · rw [← he]
        simp [lookupD]
      · have hne : p.1 ≠ k := by
          intro hk
          exact hnd.1 (hk ▸ mem_keysOf_of_mem ht)
        simp only [lookupD, if_neg hne]
        exact ih hnd.2 ht

lemma lookupD_insertD_self {α : Type} (k : String) (v : α) :
    ∀ (d : List (String × α)), lookupD (insertD d k v) k = some v := by
  intro d
  induction d with
  | nil => simp [insertD, lookupD]
  | cons p t ih =>
      by_cases h : p.1 = k
      · simp [insertD, lookupD, h]
      · simp [insertD, lookupD, h, ih]

lemma lookupD_insertD_ne {α : Type} (k k' : String) (v : α) (h : k' ≠ k) :
    ∀ (d : List (String × α)), lookupD (insertD d k v) k' = lookupD d k' := by
  have hc : ¬ (k = k') := fun hk => h hk.symm
  intro d
  induction d with
  | nil => simp [insertD, lookupD, hc]
  | cons p t ih =>
      by_cases hp : p.1 = k
      · simp [insertD, lookupD, hp, hc]
      · simp only [insertD, if_neg hp, lookupD]
        by_cases hp' : p.1 = k'
        · simp [hp']
        · simp [hp', ih]

lemma lookupD_removeD_ne {α : Type} (k k' : String) (h : k' ≠ k) :
    ∀ (d : List (String × α)), lookupD (removeD d k) k' = lookupD d k' := by
  have hc : ¬ (k = k') := fun hk => h hk.symm
  intro d
  induction d with
  | nil => simp [removeD]
  | cons p t ih =>
      by_cases hp : p.1 = k
      · have hp' : p.1 ≠ k' := fun he => h (hp ▸ he).symm
        simp [removeD, lookupD, hp, hp', hc, ih]
      · simp only [removeD, if_neg hp, lookupD]
        by_cases hp' : p.1 = k'
        · simp [hp']
        · simp [hp', ih]

lemma length_removeD_lt {α : Type} (k : String) :
    ∀ (d : List (String × α)), (lookupD d k).isSome → (removeD d k).length < d.length := by
  intro d
  induction d with
  | nil => intro h; simp [lookupD] at h
  | cons p t ih =>
      intro h
      by_cases hp : p.1 = k
      · simp [removeD, hp]
      · simp only [lookupD, if_neg hp] at h
        simp only [removeD, if_neg hp, List.length_cons]
        exact Nat.succ_lt_succ (ih h)

lemma length_insertD_le {α : Type} (k : String) (v : α) :
    ∀ (d : List (String × α)), (insertD d k v).length ≤ d.length + 1 := by
  intro d
  induction d with
  | nil => simp [insertD]
  | cons p t ih =>
      by_cases hp : p.1 = k
      · simp [insertD, hp]
      · simp only [insertD, if_neg hp, List.length_cons]
        exact Nat.succ_le_succ ih

lemma isSome_lookupD_insertD {α : Type} (k k' : String) (v : α) (d : List (String × α))
    (h : (lookupD d k').isSome) : (lookupD (insertD d k v) k').isSome := by
  by_cases he : k' = k
  · rw [he, lookupD_insertD_self]; rfl
  · rw [lookupD_insertD_ne k k' v he]; exact h

/-! ## Lemmas about `convertGo` -/

lemma convertGo_length {α : Type} :
    ∀ (ns : List String) (d : List (String × α)), ns.Nodup →
      (∀ k ∈ ns, (lookupD d k).isSome) →
      ∃ e, convertGo ns d = some e ∧ e.length ≤ d.length := by
  intro ns
  induction ns with
  | nil => intro d _ _; exact ⟨d, rfl, Nat.le_refl _⟩
  | cons n ns ih =>
      intro d hnd hin
      obtain ⟨w, hw⟩ := Option.isSome_iff_exists.mp (hin n (List.mem_cons_self n ns))
      have hrm : (removeD d n).length < d.length :=
        length_removeD_lt n d (by rw [hw]; rfl)
      set d₂ := insertD (removeD d n) (convertName n) w with hd₂
      have hd₂len : d₂.length ≤ d.length := by
        rw [hd₂]
        have := length_insertD_le (convertName n) w (removeD d n)
        omega
      have hnd' := (List.nodup_cons.mp hnd).2
      have hn_notin := (List.nodup_cons.mp hnd).1
      have hin' : ∀ k ∈ ns, (lookupD d₂ k).isSome := by
        intro k hk
        have hkn : k ≠ n := fun he => hn_notin (he ▸ hk)
        apply isSome_lookupD_insertD
        rw [lookupD_removeD_ne n k hkn]
        exact hin k (List.mem_cons_of_mem n hk)
      obtain ⟨e, he, hlen⟩ := ih d₂ hnd' hin'
      refine ⟨e, ?_, Nat.le_trans hlen hd₂len⟩
      simp [convertGo, hw, ← hd₂, he]

lemma convertGo_lookup {α : Type} :
    ∀ (pend done d : List (String × α)),
      (keysOf (done ++ pend)).Nodup →
      (∀ k₁ ∈ keysOf (done ++ pend), ∀ k₂ ∈ keysOf (done ++ pend),
        convertName k₁ = convertName k₂ → k₁ = k₂) →
      (∀ k₁ ∈ keysOf (done ++ pend), ∀ k₂ ∈ keysOf (done ++ pend),
        convertName k₁ = k₂ → k₁ = k₂) →
      (∀ p ∈ pend, lookupD d p.1 = some p.2) →
      (∀ p ∈ done, lookupD d (convertName p.1) = some p.2) →
      ∃ e, convertGo (keysOf pend) d = some e ∧
        ∀ p ∈ done ++ pend, lookupD e (convertName p.1) = some p.2 := by
  intro pend
  induction pend with
  | nil =>
      intro done d _ _ _ _ hB
      exact ⟨d, rfl, by simpa using hB⟩
  | cons p₀ rest ih =>
      intro done d hnd hinj halias hA hB
      have hmem₀ : p₀.1 ∈ keysOf (done ++ p₀ :: rest) := by
        rw [keysOf_append]
        exact List.mem_append_right _ (List.mem_cons_self _ _)
      have hndk : (keysOf done ++ p₀.1 :: keysOf rest).Nodup := by
        rw [← keysOf_cons, ← keysOf_append]; exact hnd
      have hd1 : p₀.1 ∉ keysOf done := by
        intro hc
        rcases List.nodup_append.mp hndk with ⟨_, _, hdisj⟩
        exact hdisj hc (List.mem_cons_self _ _)
      have hd2 : p₀.1 ∉ keysOf rest := by
        rcases List.nodup_append.mp hndk with ⟨_, hr, _⟩
        exact (List.nodup_cons.mp hr).1
      have hlook : lookupD d p₀.1 = some p₀.2 := hA p₀ (List.mem_cons_self _ _)
      set d₂ := insertD (removeD d p₀.1) (convertName p₀.1) p₀.2 with hd₂
      have hre : (done ++ [p₀]) ++ rest = done ++ p₀ :: rest := by
        rw [List.append_assoc]; rfl
      have hA2 : ∀ q ∈ rest, lookupD d₂ q.1 = some q.2 := by
        intro q hq
        have hq1 : q.1 ∈ keysOf (done ++ p₀ :: rest) := by
          rw [keysOf_append]
          exact List.mem_append_right _ (List.mem_cons_of_mem _ (mem_keysOf_of_mem hq))
        have hqn : q.1 ≠ p₀.1 := fun he => hd2 (he ▸ mem_keysOf_of_mem hq)
        have hqc : q.1 ≠ convertName p₀.1 := by
          intro he
          exact hqn (halias p₀.1 hmem₀ q.1 hq1 he.symm).symm
        rw [hd₂, lookupD_insertD_ne _ _ _ hqc, lookupD_removeD_ne _ _ hqn]
        exact hA q (List.mem_cons_of_mem _ hq)
      have hB2 : ∀ q ∈ done ++ [p₀], lookupD d₂ (convertName q.1) = some q.2 := by
        intro q hq
        rcases List.mem_append.mp hq with hqd | hqp
        · have hq1 : q.1 ∈ keysOf (done ++ p₀ :: rest) := by
            rw [keysOf_append]
            exact List.mem_append_left _ (mem_keysOf_of_mem hqd)
          have hqn : q.1 ≠ p₀.1 := fun he => hd1 (he ▸ mem_keysOf_of_mem hqd)
          have hc1 : convertName q.1 ≠ convertName p₀.1 := by
            intro he
            exact hqn (hinj q.1 hq1 p₀.1 hmem₀ he)
          have hc2 : convertName q.1 ≠ p₀.1 := by
            intro he
            exact hqn (halias q.1 hq1 p₀.1 hmem₀ he)
          rw [hd₂, lookupD_insertD_ne _ _ _ hc1, lookupD_removeD_ne _ _ hc2]
          exact hB q hqd
        · have hqe : q = p₀ := by simpa using hqp
          rw [hqe, hd₂, lookupD_insertD_self]
      have hnd2 : (keysOf ((done ++ [p₀]) ++ rest)).Nodup := by rw [hre]; exact hnd
      have hinj2 : ∀ k₁ ∈ keysOf ((done ++ [p₀]) ++ rest), ∀ k₂ ∈ keysOf ((done ++ [p₀]) ++ rest),
          convertName k₁ = convertName k₂ → k₁ = k₂ := by rw [hre]; exact hinj
      have halias2 : ∀ k₁ ∈ keysOf ((done ++ [p₀]) ++ rest), ∀ k₂ ∈ keysOf ((done ++ [p₀]) ++ rest),
          convertName k₁ = k₂ → k₁ = k₂ := by rw [hre]; exact halias
      obtain ⟨e, hgo, hpost⟩ := ih (done ++ [p₀]) d₂ hnd2 hinj2 halias2 hA2 hB2
      refine ⟨e, ?_, ?_⟩
      · simp only [keysOf_cons]
        simp [convertGo, hlook, ← hd₂, hgo]
      · intro q hq
        apply hpost
        rw [hre]
        exact hq

/-! ## Claims C5 and C7: cardinality and value preservation of the rewrite -/

/-- Claim C5, as stated, is false: the input dict below has two distinct keys,
`a.time_mix_k` and `a.time_mix_key`, which the rewriter silently renames to the
same target key `rwkv.a.time_mix_key`, so the output has one key where the
input had two (the later value wins). -/
theorem convert_state_dict_collision_cex :
    (keysOf [("a.time_mix_k", (0 : Nat)), ("a.time_mix_key", 1)]).Nodup ∧
    convert_state_dict [("a.time_mix_k", (0 : Nat)), ("a.time_mix_key", 1)] =
      some [("rwkv.a.time_mix_key", 1)] ∧
    [("rwkv.a.time_mix_key", (1 : Nat))].length ≠
      [("a.time_mix_k", (0 : Nat)), ("a.time_mix_key", 1)].length := by
  decide

/-- Claim C5, amended: for every input checkpoint mapping with unique keys the
Key Rewriter is a pure function producing an output mapping, and the number of
output keys is at most the number of input keys; it can be strictly smaller,
because two original keys can silently be renamed to the same target key (the
later value wins). -/
theorem convert_state_dict_card_le {α : Type} (d : List (String × α))
    (hnd : (keysOf d).Nodup) :
    ∃ e, convert_state_dict d = some e ∧ e.length ≤ d.length := by
  apply convertGo_length (keysOf d) d hnd
  intro k hk
  obtain ⟨p, hp, hpk⟩ := List.mem_map.mp hk
  rw [← hpk, lookupD_eq_some_of_mem hnd (by exact hp)]
  rfl

/-- Witness for `convert_state_dict_card_le` at a concrete two-key checkpoint. -/
theorem convert_state_dict_card_le_witness :
    ∃ e, convert_state_dict [("emb.weight", (0 : Nat)), ("head.weight", 1)] = some e ∧
      e.length ≤ [("emb.weight", (0 : Nat)), ("head.weight", 1)].length :=
  convert_state_dict_card_le _ (by decide)

/-- Claim C7, as stated, is false: in the dict below the input key
`b.time_mix_k` holds tensor `10` and is rewritten to `rwkv.b.time_mix_key`,
but in the output that name is bound to `20`, the tensor of the colliding key
`b.time_mix_key`. -/
theorem convert_state_dict_value_clobbered_cex :
    convertName "b.time_mix_k" = "rwkv.b.time_mix_key" ∧
    convert_state_dict [("b.time_mix_k", (10 : Nat)), ("b.time_mix_key", 20)] =
      some [("rwkv.b.time_mix_key", 20)] ∧
    lookupD [("rwkv.b.time_mix_key", (20 : Nat))] (convertName "b.time_mix_k") ≠ some 10 := by
  decide

/-- Claim C7, amended: whenever the rewrite is injective on the input keys and
no key's rewritten name coincides with a different original key, the tensor
bound to each key's rewritten name in the output mapping is the very same
tensor as in the input (values are moved, never transformed); when rewritten
names collide the later key's tensor silently overwrites the earlier one. -/
theorem convert_state_dict_preserves_values {α : Type} (d : List (String × α))
    (hnd : (keysOf d).Nodup)
    (hinj : ∀ k₁ ∈ keysOf d, ∀ k₂ ∈ keysOf d, convertName k₁ = convertName k₂ → k₁ = k₂)
    (halias : ∀ k₁ ∈ keysOf d, ∀ k₂ ∈ keysOf d, convertName k₁ = k₂ → k₁ = k₂) :
    ∃ e, convert_state_dict d = some e ∧
      ∀ p ∈ d, lookupD e (convertName p.1) = some p.2 := by
  obtain ⟨e, hgo, hpost⟩ :=
    convertGo_lookup d [] d hnd hinj halias
      (fun p hp => lookupD_eq_some_of_mem hnd (by exact hp))
      (fun p hp => absurd hp (List.not_mem_nil p))
  exact ⟨e, hgo, fun p hp => hpost p hp⟩

/-- Witness for `convert_state_dict_preserves_values` at a concrete checkpoint. -/
theorem convert_state_dict_preserves_values_witness :
    ∃ e, convert_state_dict [("blocks.0.ln0.weight", (3 : Nat)), ("head.weight", 4)] = some e ∧
      ∀ p ∈ [("blocks.0.ln0.weight", (3 : Nat)), ("head.weight", 4)],
        lookupD e (convertName p.1) = some p.2 :=
  convert_state_dict_preserves_values _ (by decide) (by decide) (by decide)

/-! ## Claims C2, C3, C4, C6, C10: configuration resolution -/

lemma find?_first_index {p : String → Bool} :
    ∀ (L : List String) (l : String), l ∈ L → p l = true →
      ∃ s, L.find? p = some s ∧ p s = true ∧ List.indexOf s L ≤ List.indexOf l L := by
  intro L
  induction L with
  | nil => intro l hl _; cases hl
  | cons a t ih =>
      intro l hl hp
      by_cases hpa : p a = true
      · refine ⟨a, by simp [List.find?, hpa], hpa, ?_⟩
        rw [List.indexOf_cons_self]
        exact Nat.zero_le _
      · have hla : l ≠ a := fun he => hpa (he ▸ hp)
        have hlt : l ∈ t := by
          rcases List.mem_cons.mp hl with he | ht
          · exact absurd he hla
          · exact ht
        obtain ⟨s, hfind, hps, hidx⟩ := ih l hlt hp
        have hsa : s ≠ a := fun he => hpa (he ▸ hps)
        refine ⟨s, ?_, hps, ?_⟩
        · rw [List.find?]
          rw [Bool.not_eq_true] at hpa
          rw [hpa]
          exact hfind
        · rw [List.indexOf_cons_ne t (fun he => hsa he.symm),
              List.indexOf_cons_ne t (fun he => hla he.symm)]
          exact Nat.succ_le_succ hidx

/-- Claim C10: filename-based size inference walks `possible_sizes` (the
insertion order of `NUM_HIDDEN_LAYERS_MAPPING`: 169M, 430M, 1B5, 3B, 7B, 14B)
and takes the first label that occurs as a substring of the checkpoint file
name, so whenever any known label matches, the inferred label is one of the
matches with the least table index, regardless of where the substrings occur
in the name. -/
theorem inferSize_first_match (cf : String) (l : String)
    (hl : l ∈ possible_sizes) (hs : isSubstr l cf = true) :
    ∃ s, inferSize cf = some s ∧ isSubstr s cf = true ∧
      List.indexOf s possible_sizes ≤ List.indexOf l possible_sizes :=
  find?_first_index possible_sizes l hl hs

/-- Witness for `inferSize_first_match`: in `rwkv-430M-169M.pth` the label
`430M` occurs first positionally, yet `169M` (earlier in table order) wins. -/
theorem inferSize_first_match_witness :
    ∃ s, inferSize "rwkv-430M-169M.pth" = some s ∧
      isSubstr s "rwkv-430M-169M.pth" = true ∧
      List.indexOf s possible_sizes ≤ List.indexOf "430M" possible_sizes :=
  inferSize_first_match "rwkv-430M-169M.pth" "430M" (by decide) (by decide)

/-- Claim C3 evaluation at its failing input: with no explicit size and a
checkpoint name containing `430M`, the source reads `HIDEN_SIZE_MAPPING` for
both dimensions (lines 105-106), yielding `num_hidden_layers = 1024` even
though `NUM_HIDDEN_LAYERS_MAPPING` maps `430M` to 24 as the claim expects. -/
theorem resolveDims_430M_filename_bug :
    inferSize "RWKV-4-Pile-430M-20220808-8023.pth" = some "430M" ∧
    resolveDims none "RWKV-4-Pile-430M-20220808-8023.pth" = .ok 1024 1024 ∧
    lookupD NUM_HIDDEN_LAYERS_MAPPING "430M" = some 24 ∧
    lookupD HIDEN_SIZE_MAPPING "430M" = some 1024 := by
  decide

/-- Claim C4 evaluation: for every label of the profile table, passing it as
the explicit `size` argument makes the conversion fail: the label branch
(lines 92-96) validates the label but assigns neither dimension, so building
the config raises a `NameError` instead of completing with the table values. -/
theorem resolveDims_label_raises (s : String) (cf : String) (h : s ∈ possible_sizes) :
    resolveDims (some (.label s)) cf = .raise (.nameError "num_hidden_layers") := by
  simp [resolveDims, h]

/-- Witness for `resolveDims_label_raises` at the label `430M`. -/
theorem resolveDims_label_raises_witness :
    resolveDims (some (.label "430M")) "x" = .raise (.nameError "num_hidden_layers") :=
  resolveDims_label_raises "430M" "x" (by decide)

/-- Claim C6 evaluation at its failing input: `7B` is in the known profile
table, a path on which the claim admits no error, yet the code raises (the
`NameError` of the unassigned dimension locals), so the claimed
characterisation of the error condition is violated by the source. -/
theorem resolveDims_knownLabel_error_cex :
    "7B" ∈ possible_sizes ∧
    resolveDims (some (.label "7B")) "any.pth" = .raise (.nameError "num_hidden_layers") := by
  decide

/-- Claim C2, as stated, is false: when both an explicit pair
(`num_hidden_layers = 12`, `hidden_size = 256`) and an explicit label
(`430M`) are supplied, lines 187-190 pick the label, so the result is not the
configuration `ok 12 256` determined by the pair (indeed the label path then
raises). -/
theorem mainSize_pair_loses_cex :
    resolveDims (some (mainSizeArg ⟨some "430M", 256, 12⟩)) "ckpt.pth" ≠ .ok 12 256 := by
  decide

/-- Claim C2, amended: when the caller supplies both an explicit
(num_hidden_layers, hidden_size) pair and an explicit size label, the label
(not the pair) determines the resolution — the outcome is that of the label
alone, whatever the pair holds — and the explicit pair is used only when no
label is supplied: resolution order is explicit label first, then explicit
pair. -/
theorem mainSize_label_precedence (a : CliArgs) (cf : String) :
    (∀ s, a.size = some s →
      resolveDims (some (mainSizeArg a)) cf = resolveDims (some (.label s)) cf) ∧
    (a.size = none →
      resolveDims (some (mainSizeArg a)) cf = .ok a.num_hidden_layers a.hidden_size) := by
  constructor
  · intro s hs
    simp [mainSizeArg, hs]
  · intro hs
    simp [mainSizeArg, hs, resolveDims]

/-- Witness for `mainSize_label_precedence`, exercising both branches. -/
theorem mainSize_label_precedence_witness :
    resolveDims (some (mainSizeArg ⟨some "169M", 256, 12⟩)) "ckpt.pth" =
      resolveDims (some (.label "169M")) "ckpt.pth" ∧
    resolveDims (some (mainSizeArg ⟨none, 256, 12⟩)) "ckpt.pth" = .ok 12 256 :=
  ⟨(mainSize_label_precedence ⟨some "169M", 256, 12⟩ "ckpt.pth").1 "169M" rfl,
   (mainSize_label_precedence ⟨none, 256, 12⟩ "ckpt.pth").2 rfl⟩

/-! ## Claim C8: deterministic index-file serialization -/

lemma strLeL_total : ∀ (x y : List Char), strLeL x y = true ∨ strLeL y x = true := by
  intro x
  induction x with
  | nil => intro y; left; rfl
  | cons a as ih =>
      intro y
      cases y with
      | nil => right; rfl
      | cons b bs =>
          by_cases h1 : a.toNat < b.toNat
          · left; simp [strLeL, h1]
          · by_cases h2 : b.toNat < a.toNat
            · right; simp [strLeL, h2]
            · rcases ih bs with h | h
              · left; simp [strLeL, h1, h2, h]
              · right; simp [strLeL, h1, h2, h]

lemma strLeL_trans : ∀ (x y z : List Char),
    strLeL x y = true → strLeL y z = true → strLeL x z = true := by
  intro x
  induction x with
  | nil => intro y z _ _; rfl
  | cons a as ih =>
      intro y z hxy hyz
      cases y with
      | nil => simp [strLeL] at hxy
      | cons b bs =>
          cases z with
          | nil => simp [strLeL] at hyz
          | cons c cs =>
              simp only [strLeL] at hxy hyz ⊢
              by_cases h1 : a.toNat < b.toNat
              · by_cases h2 : b.toNat < c.toNat
                · simp [show a.toNat < c.toNat by omega]
                · by_cases h3 : c.toNat < b.toNat
                  · simp [h2, h3] at hyz
                  · simp [show a.toNat < c.toNat by omega]
              · by_cases h4 : b.toNat < a.toNat
                · simp [h1, h4] at hxy
                · by_cases h2 : b.toNat < c.toNat
                  · simp [show a.toNat < c.toNat by omega]
                  · by_cases h3 : c.toNat < b.toNat
                    · simp [h2, h3] at hyz
                    · simp only [if_neg h1, if_neg h4] at hxy
                      simp only [if_neg h2, if_neg h3] at hyz
                      simp only [if_neg (show ¬ a.toNat < c.toNat by omega),
                        if_neg (show ¬ c.toNat < a.toNat by omega)]
                      exact ih bs cs hxy hyz

lemma strLeL_antisymm : ∀ (x y : List Char),
    strLeL x y = true → strLeL y x = true → x = y := by
  intro x
  induction x with
  | nil =>
      intro y _ hyx
      cases y with
      | nil => rfl
      | cons b bs => simp [strLeL] at hyx
  | cons a as ih =>
      intro y hxy hyx
      cases y with
      | nil => simp [strLeL] at hxy
      | cons b bs =>
          by_cases h1 : a.toNat < b.toNat
          · simp [strLeL, show ¬ b.toNat < a.toNat by omega, h1] at hyx
          · by_cases h2 : b.toNat < a.toNat
            · simp [strLeL, h1, h2] at hxy
            · have hab : a = b := by
                apply Char.ext
                exact UInt32.toNat.inj (show a.toNat = b.toNat by omega)
              simp only [strLeL, if_neg h1, if_neg h2] at hxy hyx
              rw [hab, ih bs hxy hyx]

lemma strLe_antisymm {a b : String} (h1 : strLe a b = true) (h2 : strLe b a = true) :
    a = b := by
  cases a; cases b
  exact congrArg String.mk (strLeL_antisymm _ _ h1 h2)

lemma sortWeightMap_eq_of_perm {wm wm₂ : List (String × String)}
    (hnd : (wm.map Prod.fst).Nodup) (hperm : List.Perm wm₂ wm) :
    sortWeightMap wm₂ = sortWeightMap wm := by
  haveI htot : IsTotal (String × String) (fun p q => strLe p.1 q.1 = true) :=
    ⟨fun p q => strLeL_total p.1.data q.1.data⟩
  haveI htr : IsTrans (String × String) (fun p q => strLe p.1 q.1 = true) :=
    ⟨fun p q u hpq hqu => strLeL_trans _ _ _ hpq hqu⟩
  haveI hanti : IsAntisymm (String × String)
      (fun p q => strLe p.1 q.1 = true ∧ p.1 ≠ q.1) :=
    ⟨fun p q hpq hqp => (hpq.2 (strLe_antisymm hpq.1 hqp.1)).elim⟩
  have hnd₂ : (wm₂.map Prod.fst).Nodup := ((hperm.map Prod.fst).nodup_iff).mpr hnd
  have hsorted : ∀ (L : List (String × String)), (L.map Prod.fst).Nodup →
      List.Sorted (fun p q => strLe p.1 q.1 = true ∧ p.1 ≠ q.1) (sortWeightMap L) := by
    intro L hndL
    have hle : List.Sorted (fun p q : String × String => strLe p.1 q.1 = true)
        (sortWeightMap L) := List.sorted_insertionSort _ L
    have hndS : ((sortWeightMap L).map Prod.fst).Nodup :=
      (((List.perm_insertionSort _ L).map Prod.fst).nodup_iff).mpr hndL
    have hne : (sortWeightMap L).Pairwise (fun p q : String × String => p.1 ≠ q.1) :=
      List.pairwise_map.mp hndS
    exact (hle.and hne)
  have hperms : List.Perm (sortWeightMap wm₂) (sortWeightMap wm) :=
    (List.perm_insertionSort _ wm₂).trans (hperm.trans (List.perm_insertionSort _ wm).symm)
  exact List.eq_of_perm_of_sorted hperms (hsorted wm₂ hnd₂) (hsorted wm hnd)

lemma newline_single_suffix (l : List Char) (c : Char) :
    ([c]).isSuffixOf (l ++ [c]) = true := by
  simp [List.isSuffixOf, List.reverse_append, List.isPrefixOf]

lemma newline_double_suffix_false (l : List Char) :
    (['\n', '\n']).isSuffixOf (l ++ ['\n', '\x7d'] ++ ['\n']) = false := by
  simp +decide [List.isSuffixOf, List.reverse_append, List.isPrefixOf]

/-- Claim C8: the index file's bytes are the JSON serialization of the shard
index with keys sorted and a single trailing newline; in particular the bytes
do not depend on the enumeration order of the weight map (any permutation of
the renamed checkpoint's entries serializes identically), so two runs on the
same renamed checkpoint write byte-identical index files. -/
theorem indexFileContent_deterministic (t : Nat) (wm wm₂ : List (String × String))
    (hnd : (wm.map Prod.fst).Nodup) (hperm : List.Perm wm₂ wm) :
    indexFileContent ⟨t, wm₂⟩ = indexFileContent ⟨t, wm⟩ ∧
    List.Sorted (fun p q : String × String => strLe p.1 q.1 = true) (sortWeightMap wm) ∧
    ("\n".data).isSuffixOf (indexFileContent ⟨t, wm⟩).data = true ∧
    ("\n\n".data).isSuffixOf (indexFileContent ⟨t, wm⟩).data = false := by
  haveI htot : IsTotal (String × String) (fun p q => strLe p.1 q.1 = true) :=
    ⟨fun p q => strLeL_total p.1.data q.1.data⟩
  haveI htr : IsTrans (String × String) (fun p q => strLe p.1 q.1 = true) :=
    ⟨fun p q u hpq hqu => strLeL_trans _ _ _ hpq hqu⟩
  refine ⟨?_, List.sorted_insertionSort _ wm, ?_, ?_⟩
  · unfold indexFileContent dumpsIndex weightMapJson
    rw [sortWeightMap_eq_of_perm hnd hperm]
  · have hdata : (indexFileContent ⟨t, wm⟩).data =
        ((("\x7b\n  \"metadata\": \x7b\n    \"total_size\": " ++ toString t ++
          "\n  \x7d,\n  \"weight_map\": " ++ weightMapJson wm).data ++ ['\n', '\x7d']) ++ ['\n']) := by
      show ((_ ++ "\n\x7d") ++ "\n").data = _
      rw [String.data_append, String.data_append]
    rw [hdata]
    exact newline_single_suffix _ '\n'
  · have hdata : (indexFileContent ⟨t, wm⟩).data =
        ((("\x7b\n  \"metadata\": \x7b\n    \"total_size\": " ++ toString t ++
          "\n  \x7d,\n  \"weight_map\": " ++ weightMapJson wm).data ++ ['\n', '\x7d']) ++ ['\n']) := by
      show ((_ ++ "\n\x7d") ++ "\n").data = _
      rw [String.data_append, String.data_append]
    rw [hdata]
    exact newline_double_suffix_false _

/-- Witness for `indexFileContent_deterministic` at a concrete two-shard index. -/
theorem indexFileContent_deterministic_witness :
    indexFileContent ⟨7, [("a", "s2"), ("b", "s1")]⟩ =
      indexFileContent ⟨7, [("b", "s1"), ("a", "s2")]⟩ ∧
    List.Sorted (fun p q : String × String => strLe p.1 q.1 = true)
      (sortWeightMap [("b", "s1"), ("a", "s2")]) ∧
    ("\n".data).isSuffixOf (indexFileContent ⟨7, [("b", "s1"), ("a", "s2")]⟩).data = true ∧
    ("\n\n".data).isSuffixOf (indexFileContent ⟨7, [("b", "s1"), ("a", "s2")]⟩).data = false :=
  indexFileContent_deterministic 7 [("b", "s1"), ("a", "s2")] [("a", "s2"), ("b", "s1")]
    (by decide) (by decide)

/-! ## Claim C1: helper lemmas about scanning over an abstract digit run -/

lemma beq_false_of_not_digit_digit (a : Char) (ha : a.isDigit = false)
    {c : Char} (hc : c.isDigit = true) : (a == c) = false := by
  cases h : a == c
  · rfl
  · have he : a = c := eq_of_beq h
    rw [he] at ha
    rw [hc] at ha
    cases ha

lemma isPrefixOf_false_of_head_ne (a b : Char) (as bs : List Char) (h : (a == b) = false) :
    (a :: as).isPrefixOf (b :: bs) = false := by
  simp [List.isPrefixOf, h]

lemma nil_isPrefixOf (l : List Char) : ([] : List Char).isPrefixOf l = true := by
  cases l <;> rfl

lemma isPrefixOf_append_same : ∀ (p q l : List Char),
    (p ++ q).isPrefixOf (p ++ l) = q.isPrefixOf l := by
  intro p
  induction p with
  | nil => intro q l; rfl
  | cons a p ih => intro q l; simp [List.isPrefixOf, ih]

lemma isPrefixOf_append_self (p l : List Char) : p.isPrefixOf (p ++ l) = true := by
  have h := isPrefixOf_append_same p [] l
  rw [List.append_nil] at h
  rw [h, nil_isPrefixOf]

lemma isPrefixOf_append_left : ∀ (p a b : List Char), p.length ≤ a.length →
    p.isPrefixOf (a ++ b) = p.isPrefixOf a := by
  intro p
  induction p with
  | nil => intro a b _; rw [nil_isPrefixOf, nil_isPrefixOf]
  | cons x xs ih =>
      intro a b hlen
      cases a with
      | nil => simp at hlen
      | cons y ys =>
          have hlen2 : xs.length ≤ ys.length := by simpa using hlen
          simp only [List.cons_append, List.isPrefixOf]
          have hconv : ys.append b = ys ++ b := rfl
          rw [hconv, ih ys b hlen2]

lemma isSuffixOf_append_right (q x y : List Char) (h : q.length ≤ y.length) :
    q.isSuffixOf (x ++ y) = q.isSuffixOf y := by
  simp only [List.isSuffixOf, List.reverse_append]
  exact isPrefixOf_append_left q.reverse y.reverse x.reverse (by simpa using h)

lemma takeWhile_isDigit_append (ds : List Char) (hds : ∀ c ∈ ds, c.isDigit = true)
    (a : Char) (ha : a.isDigit = false) (rest : List Char) :
    (ds ++ a :: rest).takeWhile Char.isDigit = ds := by
  induction ds with
  | nil => simp [List.takeWhile_cons, ha]
  | cons d ds2 ih =>
      simp only [List.cons_append, List.takeWhile_cons, hds d (List.mem_cons_self d ds2),
        if_true]
      rw [ih fun c hc => hds c (List.mem_cons_of_mem d hc)]

lemma replaceAllL_skip_char (pat repl : List Char) (c : Char) (fuel : Nat) (cs : List Char)
    (h : pat.isPrefixOf (c :: cs) = false) :
    replaceAllL pat repl (fuel + 1) (c :: cs) = c :: replaceAllL pat repl fuel cs := by
  simp [replaceAllL, h]

lemma replaceAllL_not_mem_head (p : Char) (ps repl : List Char) :
    ∀ (l : List Char) (fuel : Nat), p ∉ l →
      replaceAllL (p :: ps) repl fuel l = l := by
  intro l
  induction l with
  | nil =>
      intro fuel _
      match fuel with
      | 0 => rfl
      | _+1 => rfl
  | cons c cs ih =>
      intro fuel hmem
      have hpc : (p == c) = false := by
        have : p ≠ c := fun he => hmem (he ▸ List.mem_cons_self c cs)
        exact beq_eq_false_iff_ne.mpr this
      match fuel with
      | 0 => rfl
      | f+1 =>
          rw [replaceAllL_skip_char _ _ _ _ _ (isPrefixOf_false_of_head_ne p c ps cs hpc)]
          rw [ih f fun hm => hmem (List.mem_cons_of_mem c hm)]

lemma replaceAllL_skip_not_mem (p : Char) (ps repl : List Char) :
    ∀ (pre : List Char), p ∉ pre → ∀ (fuel : Nat) (y : List Char),
      replaceAllL (p :: ps) repl (pre.length + fuel) (pre ++ y) =
        pre ++ replaceAllL (p :: ps) repl fuel y := by
  intro pre
  induction pre with
  | nil =>
      intro _ fuel y
      simp
  | cons c pre2 ih =>
      intro hmem fuel y
      have hpc : (p == c) = false := by
        have : p ≠ c := fun he => hmem (he ▸ List.mem_cons_self c pre2)
        exact beq_eq_false_iff_ne.mpr this
      have hfuel : (c :: pre2).length + fuel = (pre2.length + fuel) + 1 := by
        rw [List.length_cons]; omega
      rw [hfuel, List.cons_append,
        replaceAllL_skip_char _ _ _ _ _ (isPrefixOf_false_of_head_ne p c ps _ hpc),
        ih (fun hm => hmem (List.mem_cons_of_mem c hm)) fuel y]
      rfl

lemma replaceAllL_skip_digits (p : Char) (ps repl : List Char) (hp : p.isDigit = false) :
    ∀ (ds : List Char), (∀ c ∈ ds, c.isDigit = true) → ∀ (fuel : Nat) (rest : List Char),
      replaceAllL (p :: ps) repl (ds.length + fuel) (ds ++ rest) =
        ds ++ replaceAllL (p :: ps) repl fuel rest := by
  intro ds hds fuel rest
  apply replaceAllL_skip_not_mem
  intro hm
  have := hds p hm
  rw [hp] at this
  cases this

lemma subBlocksL_skip_char (seg repl : List Char) (c : Char) (fuel : Nat) (cs : List Char)
    (h : blocksDot.isPrefixOf (c :: cs) = false) :
    subBlocksL seg repl (fuel + 1) (c :: cs) = c :: subBlocksL seg repl fuel cs := by
  simp [subBlocksL, h]

lemma subBlocksL_no_b (seg repl : List Char) :
    ∀ (l : List Char) (fuel : Nat), 'b' ∉ l → subBlocksL seg repl fuel l = l := by
  intro l
  induction l with
  | nil =>
      intro fuel _
      match fuel with
      | 0 => rfl
      | _+1 => rfl
  | cons c cs ih =>
      intro fuel hmem
      have hbc : (('b' : Char) == c) = false := by
        have : ('b' : Char) ≠ c := fun he => hmem (he ▸ List.mem_cons_self c cs)
        exact beq_eq_false_iff_ne.mpr this
      match fuel with
      | 0 => rfl
      | f+1 =>
          rw [subBlocksL_skip_char _ _ _ _ _
            (isPrefixOf_false_of_head_ne 'b' c _ cs hbc)]
          rw [ih f fun hm => hmem (List.mem_cons_of_mem c hm)]

lemma subBlocksL_hit (seg repl : List Char) (fuel : Nat) (ds tail : List Char)
    (hne : ds ≠ []) (hds : ∀ c ∈ ds, c.isDigit = true) :
    subBlocksL seg repl (fuel + 1) (blocksDot ++ (ds ++ ('.' :: (seg ++ tail)))) =
      blocksDot ++ ds ++ '.' :: (repl ++ subBlocksL seg repl fuel tail) := by
  show subBlocksL seg repl (fuel + 1)
      ('b' :: ("locks.".data ++ (ds ++ ('.' :: (seg ++ tail))))) = _
  have h1 : blocksDot.isPrefixOf ('b' :: ("locks.".data ++ (ds ++ ('.' :: (seg ++ tail))))) = true :=
    isPrefixOf_append_self blocksDot _
  have hdr : ('b' :: ("locks.".data ++ (ds ++ ('.' :: (seg ++ tail))))).drop blocksDot.length =
      ds ++ ('.' :: (seg ++ tail)) :=
    List.drop_left blocksDot _
  have htw : (ds ++ ('.' :: (seg ++ tail))).takeWhile Char.isDigit = ds :=
    takeWhile_isDigit_append ds hds '.' (by decide) _
  have hdr2 : (ds ++ ('.' :: (seg ++ tail))).drop ds.length = '.' :: (seg ++ tail) :=
    List.drop_left ds _
  have hie : ds.isEmpty = false := by
    cases ds with
    | nil => exact absurd rfl hne
    | cons d ds2 => rfl
  have hpre : ('.' :: seg).isPrefixOf ('.' :: (seg ++ tail)) = true :=
    isPrefixOf_append_self ('.' :: seg) tail
  have hdr3 : ('.' :: (seg ++ tail)).drop (seg.length + 1) = tail :=
    List.drop_left ('.' :: seg) tail
  simp only [subBlocksL, h1, if_true, hdr, htw, hdr2, hie, hpre, hdr3,
    Bool.not_false, Bool.true_and, Bool.and_true, if_pos]

lemma subBlocksL_root_nomatch (seg repl : List Char) (fuel : Nat) (x : List Char)
    (h2 : ((!(x.takeWhile Char.isDigit).isEmpty) &&
      ('.' :: seg).isPrefixOf (x.drop (x.takeWhile Char.isDigit).length)) = false) :
    subBlocksL seg repl (fuel + 1) (blocksDot ++ x) =
      'b' :: subBlocksL seg repl fuel ("locks.".data ++ x) := by
  show subBlocksL seg repl (fuel + 1) ('b' :: ("locks.".data ++ x)) = _
  have h1 : blocksDot.isPrefixOf ('b' :: ("locks.".data ++ x)) = true :=
    isPrefixOf_append_self blocksDot _
  have hdr : ('b' :: ("locks.".data ++ x)).drop blocksDot.length = x :=
    List.drop_left blocksDot _
  simp only [subBlocksL, h1, if_true, hdr, h2, Bool.false_eq_true, if_false]

/-- Claim C1: the Key Rewriter produces exactly the expected renamings: on a
checkpoint holding the four spec examples it returns precisely the renamed
dict (`emb.weight` to `rwkv.embeddings.weight`, `blocks.0.ln0.weight` to
`rwkv.blocks.0.pre_ln.weight`, `blocks.3.att.time_mix_k` to
`rwkv.blocks.3.attention.time_mix_key`, and `head.weight` unchanged with no
prefix), and for every non-empty numeric block index (any digit string) the
`att`/`time_mix_k` key renames with the index preserved. -/
theorem convert_state_dict_expected_renames :
    (convert_state_dict
        [("emb.weight", (0 : Nat)), ("blocks.0.ln0.weight", 1),
          ("blocks.3.att.time_mix_k", 2), ("head.weight", 3)] =
      some [("rwkv.embeddings.weight", 0), ("rwkv.blocks.0.pre_ln.weight", 1),
        ("rwkv.blocks.3.attention.time_mix_key", 2), ("head.weight", 3)]) ∧
    (∀ ds : List Char, ds ≠ [] → (∀ c ∈ ds, c.isDigit = true) →
      convertNameL ("blocks.".data ++ ds ++ ".att.time_mix_k".data) =
        "rwkv.blocks.".data ++ ds ++ ".attention.time_mix_key".data) := by
  constructor
  · decide
  · intro ds hne hds
    have c1 : ("emb.".data).isPrefixOf
        ("blocks.".data ++ (ds ++ ".att.time_mix_k".data)) = false := by
      show (('e' :: "mb.".data)).isPrefixOf
        ('b' :: ("locks.".data ++ (ds ++ ".att.time_mix_k".data))) = false
      exact isPrefixOf_false_of_head_ne 'e' 'b' _ _ (by decide)
    have c2 : ("blocks.0.ln0".data).isPrefixOf
        ("blocks.".data ++ (ds ++ ".att.time_mix_k".data)) = false := by
      have h := isPrefixOf_append_same "blocks.".data ['0', '.', 'l', 'n', '0']
        (ds ++ ".att.time_mix_k".data)
      rw [show ("blocks.0.ln0".data).isPrefixOf
          ("blocks.".data ++ (ds ++ ".att.time_mix_k".data)) =
          (['0', '.', 'l', 'n', '0'] : List Char).isPrefixOf
            (ds ++ ".att.time_mix_k".data) from h]
      cases ds with
      | nil => exact absurd rfl hne
      | cons d ds2 =>
          have h2 : (['.', 'l', 'n', '0'] : List Char).isPrefixOf
              (ds2 ++ ".att.time_mix_k".data) = false := by
            cases ds2 with
            | nil =>
                rw [List.nil_append]
                decide
            | cons e ds3 =>
                rw [List.cons_append]
                exact isPrefixOf_false_of_head_ne '.' e _ _
                  (beq_false_of_not_digit_digit '.' (by decide) (hds e (by simp)))
          rw [List.cons_append,
            show (['0', '.', 'l', 'n', '0'] : List Char).isPrefixOf
              (d :: (ds2 ++ ".att.time_mix_k".data)) =
              (('0' == d) && (['.', 'l', 'n', '0'] : List Char).isPrefixOf
                (ds2 ++ ".att.time_mix_k".data)) from rfl,
            h2, Bool.and_false]
    have e3 : reSubBlocks "att".data "attention".data
        ("blocks.".data ++ (ds ++ ".att.time_mix_k".data)) =
        "blocks.".data ++ (ds ++ ".attention.time_mix_k".data) := by
      show subBlocksL "att".data "attention".data
        (("blocks.".data ++ (ds ++ ".att.time_mix_k".data)).length)
        ("blocks.".data ++ (ds ++ ".att.time_mix_k".data)) = _
      have hlen : ("blocks.".data ++ (ds ++ ".att.time_mix_k".data)).length =
          (ds.length + 21) + 1 := by
        rw [List.length_append, List.length_append,
          show ("blocks.".data).length = 7 from rfl,
          show (".att.time_mix_k".data).length = 15 from rfl]
        omega
      rw [hlen,
        show ("blocks.".data ++ (ds ++ ".att.time_mix_k".data) : List Char) =
          blocksDot ++ (ds ++ ('.' :: ("att".data ++ ".time_mix_k".data))) from rfl,
        subBlocksL_hit "att".data "attention".data (ds.length + 21) ds
          ".time_mix_k".data hne hds,
        subBlocksL_no_b "att".data "attention".data ".time_mix_k".data
          (ds.length + 21) (by decide)]
      rfl
    have e4 : reSubBlocks "ffn".data "feed_forward".data
        ("blocks.".data ++ (ds ++ ".attention.time_mix_k".data)) =
        "blocks.".data ++ (ds ++ ".attention.time_mix_k".data) := by
      show subBlocksL "ffn".data "feed_forward".data
        (("blocks.".data ++ (ds ++ ".attention.time_mix_k".data)).length)
        ("blocks.".data ++ (ds ++ ".attention.time_mix_k".data)) = _
      have hlen : ("blocks.".data ++ (ds ++ ".attention.time_mix_k".data)).length =
          (ds.length + 27) + 1 := by
        rw [List.length_append, List.length_append,
          show ("blocks.".data).length = 7 from rfl,
          show (".attention.time_mix_k".data).length = 21 from rfl]
        omega
      have h2f : ((!((ds ++ ".attention.time_mix_k".data).takeWhile Char.isDigit).isEmpty) &&
          ('.' :: "ffn".data).isPrefixOf ((ds ++ ".attention.time_mix_k".data).drop
            ((ds ++ ".attention.time_mix_k".data).takeWhile Char.isDigit).length)) = false := by
        have htw : (ds ++ ".attention.time_mix_k".data).takeWhile Char.isDigit = ds := by
          rw [show (".attention.time_mix_k".data : List Char) =
            '.' :: "attention.time_mix_k".data from rfl]
          exact takeWhile_isDigit_append ds hds '.' (by decide) _
        rw [htw, List.drop_left,
          show (('.' :: "ffn".data).isPrefixOf (".attention.time_mix_k".data)) = false
            from by decide,
          Bool.and_false]
      have hnob : 'b' ∉ "locks.".data ++ (ds ++ ".attention.time_mix_k".data) := by
        intro hm
        rcases List.mem_append.mp hm with h | h
        · exact absurd h (by decide)
        · rcases List.mem_append.mp h with h | h
          · exact absurd (hds 'b' h) (by decide)
          · exact absurd h (by decide)
      rw [hlen,
        show ("blocks.".data ++ (ds ++ ".attention.time_mix_k".data) : List Char) =
          blocksDot ++ (ds ++ ".attention.time_mix_k".data) from rfl,
        subBlocksL_root_nomatch "ffn".data "feed_forward".data (ds.length + 27)
          (ds ++ ".attention.time_mix_k".data) h2f,
        subBlocksL_no_b "ffn".data "feed_forward".data _ (ds.length + 27) hnob]
      rfl
    have c5 : (".time_mix_k".data).isSuffixOf
        ("blocks.".data ++ (ds ++ ".attention.time_mix_k".data)) = true := by
      rw [isSuffixOf_append_right _ _ _ (by
        rw [List.length_append,
          show (".time_mix_k".data).length = 11 from rfl,
          show (".attention.time_mix_k".data).length = 21 from rfl]
        omega)]
      rw [isSuffixOf_append_right _ _ _ (by decide)]
      decide
    have e5 : pyReplace ("blocks.".data ++ (ds ++ ".attention.time_mix_k".data))
        ".time_mix_k".data ".time_mix_key".data =
        "blocks.".data ++ (ds ++ ".attention.time_mix_key".data) := by
      show replaceAllL ".time_mix_k".data ".time_mix_key".data
        (("blocks.".data ++ (ds ++ ".attention.time_mix_k".data)).length)
        ("blocks.".data ++ (ds ++ ".attention.time_mix_k".data)) = _
      have hlen : ("blocks.".data ++ (ds ++ ".attention.time_mix_k".data)).length =
          ("blocks".data).length + ((ds.length + 21) + 1) := by
        rw [List.length_append, List.length_append,
          show ("blocks.".data).length = 7 from rfl,
          show (".attention.time_mix_k".data).length = 21 from rfl,
          show ("blocks".data).length = 6 from rfl]
        omega
      have hdot : (('.' :: "time_mix_k".data)).isPrefixOf
          ('.' :: (ds ++ ".attention.time_mix_k".data)) = false := by
        cases ds with
        | nil => exact absurd rfl hne
        | cons d ds2 =>
            have htd : (('t' : Char) == d) = false :=
              beq_false_of_not_digit_digit 't' (by decide) (hds d (by simp))
            show (('.' :: ('t' :: "ime_mix_k".data))).isPrefixOf
              ('.' :: (d :: (ds2 ++ ".attention.time_mix_k".data))) = false
            simp only [List.isPrefixOf, htd, Bool.false_and, Bool.and_false]
      rw [hlen,
        show (".time_mix_k".data : List Char) = '.' :: "time_mix_k".data from rfl,
        show ("blocks.".data ++ (ds ++ ".attention.time_mix_k".data) : List Char) =
          "blocks".data ++ ('.' :: (ds ++ ".attention.time_mix_k".data)) from rfl,
        replaceAllL_skip_not_mem '.' "time_mix_k".data ".time_mix_key".data
          "blocks".data (by decide) ((ds.length + 21) + 1)
          ('.' :: (ds ++ ".attention.time_mix_k".data)),
        replaceAllL_skip_char _ _ '.' (ds.length + 21) _ hdot,
        replaceAllL_skip_digits '.' "time_mix_k".data ".time_mix_key".data
          (by decide) ds hds 21 ".attention.time_mix_k".data,
        show replaceAllL ('.' :: "time_mix_k".data) ".time_mix_key".data 21
          (".attention.time_mix_k".data) = ".attention.time_mix_key".data from by decide]
      rfl
    have c6 : (".time_mix_v".data).isSuffixOf
        ("blocks.".data ++ (ds ++ ".attention.time_mix_key".data)) = false := by
      rw [isSuffixOf_append_right _ _ _ (by
        rw [List.length_append,
          show (".time_mix_v".data).length = 11 from rfl,
          show (".attention.time_mix_key".data).length = 23 from rfl]
        omega)]
      rw [isSuffixOf_append_right _ _ _ (by decide)]
      decide
    have c7 : (".time_mix_r".data).isSuffixOf
        ("blocks.".data ++ (ds ++ ".attention.time_mix_key".data)) = false := by
      rw [isSuffixOf_append_right _ _ _ (by
        rw [List.length_append,
          show (".time_mix_r".data).length = 11 from rfl,
          show (".attention.time_mix_key".data).length = 23 from rfl]
        omega)]
      rw [isSuffixOf_append_right _ _ _ (by decide)]
      decide
    have c8 : ("blocks.".data ++ (ds ++ ".attention.time_mix_key".data)) ≠
        "head.weight".data := by
      intro h
      have h2 : ('b' :: ("locks.".data ++ (ds ++ ".attention.time_mix_key".data))) =
          ('h' :: "ead.weight".data) := h
      injection h2 with h3 _
      exact absurd h3 (by decide)
    have s1 : embStep ("blocks.".data ++ (ds ++ ".att.time_mix_k".data)) =
        "blocks.".data ++ (ds ++ ".att.time_mix_k".data) := by
      simp only [embStep, c1, Bool.false_eq_true, if_false]
    have s2 : ln0Step ("blocks.".data ++ (ds ++ ".att.time_mix_k".data)) =
        "blocks.".data ++ (ds ++ ".att.time_mix_k".data) := by
      simp only [ln0Step, c2, Bool.false_eq_true, if_false]
    have s3 : attStep ("blocks.".data ++ (ds ++ ".att.time_mix_k".data)) =
        "blocks.".data ++ (ds ++ ".attention.time_mix_k".data) := e3
    have s4 : ffnStep ("blocks.".data ++ (ds ++ ".attention.time_mix_k".data)) =
        "blocks.".data ++ (ds ++ ".attention.time_mix_k".data) := e4
    have s5 : timeMixKStep ("blocks.".data ++ (ds ++ ".attention.time_mix_k".data)) =
        "blocks.".data ++ (ds ++ ".attention.time_mix_key".data) := by
      simp only [timeMixKStep, c5, if_true]
      exact e5
    have s6 : timeMixVStep ("blocks.".data ++ (ds ++ ".attention.time_mix_key".data)) =
        "blocks.".data ++ (ds ++ ".attention.time_mix_key".data) := by
      simp only [timeMixVStep, c6, Bool.false_eq_true, if_false]
    have s7 : timeMixRStep ("blocks.".data ++ (ds ++ ".attention.time_mix_key".data)) =
        "blocks.".data ++ (ds ++ ".attention.time_mix_key".data) := by
      simp only [timeMixRStep, c7, Bool.false_eq_true, if_false]
    have s8 : headStep ("blocks.".data ++ (ds ++ ".attention.time_mix_key".data)) =
        "rwkv.".data ++ ("blocks.".data ++ (ds ++ ".attention.time_mix_key".data)) := by
      rw [headStep, if_pos c8]
    show convertNameL ("blocks.".data ++ (ds ++ ".att.time_mix_k".data)) =
      "rwkv.blocks.".data ++ (ds ++ ".attention.time_mix_key".data)
    rw [convertNameL, s1, s2, s3, s4, s5, s6, s7, s8]
    rfl

/-- Witness for `convert_state_dict_expected_renames` at the two-digit block
index 12. -/
theorem convert_state_dict_expected_renames_witness :
    convertNameL ("blocks.".data ++ ['1', '2'] ++ ".att.time_mix_k".data) =
      "rwkv.blocks.".data ++ ['1', '2'] ++ ".attention.time_mix_key".data :=
  convert_state_dict_expected_renames.2 ['1', '2'] (by decide) (by decide)

/-! ## Claim C9: the cleanup pass cannot invalidate the written artifacts -/

/-- The re-save loop really mutates the store at the bare paths it touches:
with the shard stored at the bare name itself (as happens when the output
directory is empty, since `osPathJoin "" f = f`), an out-of-memory failure
part-way through the write-back leaves the oracle's partial content there. -/
lemma cleanupShards_can_corrupt_touched_path :
    osPathJoin "" "s1" = "s1" ∧
    lookupD (cleanupOutcomeStore (cleanupShards (fun (v : Nat) => v)
        (fun _ => .oomDuringSave (FileData.text "partial")) 0 ["s1"]
        [("s1", FileData.tensors [("k", 5)])])) "s1" =
      some (FileData.text "partial") := by
  decide

lemma cleanupShards_untouched {α : Type} (cpuClone : α → α) (oracle : Nat → SaveOutcome α) :
    ∀ (files : List String) (i₀ : Nat) (fs : FileStore α) (target : String),
      target ∉ files →
      lookupD (cleanupOutcomeStore (cleanupShards cpuClone oracle i₀ files fs)) target =
        lookupD fs target := by
  intro files
  induction files with
  | nil => intro i₀ fs target _; rfl
  | cons f rest ih =>
      intro i₀ fs target htarget
      have htf : target ≠ f := fun he => htarget (he ▸ List.mem_cons_self f rest)
      have htr : target ∉ rest := fun hm => htarget (List.mem_cons_of_mem f hm)
      cases hl : lookupD fs f with
      | none => simp [cleanupShards, hl, cleanupOutcomeStore]
      | some data =>
          cases data with
          | text s => simp [cleanupShards, hl, cleanupOutcomeStore]
          | tensors m =>
              cases horacle : oracle i₀ with
              | oomBeforeSave => simp [cleanupShards, hl, horacle, cleanupOutcomeStore]
              | oomDuringSave corrupt =>
                  simp only [cleanupShards, hl, horacle, cleanupOutcomeStore]
                  exact lookupD_insertD_ne f target corrupt htf fs
              | ok =>
                  simp only [cleanupShards, hl, horacle]
                  rw [ih (i₀ + 1) _ target htr,
                    lookupD_insertD_ne f target _ htf fs]

/-- Claim C9: however the defensive re-save pass fails — memory exhausted at
any iteration, before or even part-way through a `torch.save` that leaves
arbitrary content at the path it touches — every path under the output
directory still holds exactly what the sharding step (lines 124-132) wrote
there: the loop of lines 144-146 loads and saves only at the bare shard-file
names, which never lie under a non-empty output directory whose shard names
do not themselves start with `output_dir ++ "/"`, so the shard files and the
index file of the conversion result remain on disk unchanged and valid. -/
theorem cleanup_failure_preserves_artifacts {α : Type} (cpuClone : α → α)
    (oracle : Nat → SaveOutcome α) (output_dir : String)
    (shards : List (String × List (String × α))) (index : Option ShardIndex)
    (fs0 : FileStore α) (hdir : output_dir ≠ "")
    (hbare : ∀ g ∈ shards.map Prod.fst,
      ((output_dir ++ "/").data).isPrefixOf g.data = false)
    (f : String) :
    lookupD (cleanupOutcomeStore (cleanupShards cpuClone oracle 0 (shards.map Prod.fst)
        (saveShardsAndIndex output_dir shards index fs0)))
      (osPathJoin output_dir f) =
    lookupD (saveShardsAndIndex output_dir shards index fs0) (osPathJoin output_dir f) := by
  apply cleanupShards_untouched
  intro hmem
  have hpre := hbare _ hmem
  rw [show (osPathJoin output_dir f) = (output_dir ++ "/") ++ f from by
    unfold osPathJoin; rw [if_neg hdir]] at hpre
  rw [show ((output_dir ++ "/") ++ f).data = ((output_dir ++ "/").data) ++ f.data from
    String.data_append _ _] at hpre
  rw [isPrefixOf_append_self] at hpre
  cases hpre

/-- Witness for `cleanup_failure_preserves_artifacts`: a two-shard checkpoint
written under `out`, with an oracle that corrupts the touched path during the
very first re-save. -/
theorem cleanup_failure_preserves_artifacts_witness :
    lookupD (cleanupOutcomeStore (cleanupShards (fun v => v + 1)
        (fun _ => .oomDuringSave (FileData.text "corrupt")) 0
        ((([("pytorch_model-00001-of-00002.bin", [("k", (0 : Nat))]),
            ("pytorch_model-00002-of-00002.bin", [("q", 1)])] :
            List (String × List (String × Nat))).map Prod.fst))
        (saveShardsAndIndex "out"
          [("pytorch_model-00001-of-00002.bin", [("k", (0 : Nat))]),
            ("pytorch_model-00002-of-00002.bin", [("q", 1)])]
          (some ⟨8, [("k", "pytorch_model-00001-of-00002.bin"),
            ("q", "pytorch_model-00002-of-00002.bin")]⟩) [])))
      (osPathJoin "out" "pytorch_model-00001-of-00002.bin") =
    lookupD (saveShardsAndIndex "out"
        [("pytorch_model-00001-of-00002.bin", [("k", (0 : Nat))]),
          ("pytorch_model-00002-of-00002.bin", [("q", 1)])]
        (some ⟨8, [("k", "pytorch_model-00001-of-00002.bin"),
          ("q", "pytorch_model-00002-of-00002.bin")]⟩) [])
      (osPathJoin "out" "pytorch_model-00001-of-00002.bin") :=
  cleanup_failure_preserves_artifacts (fun v => v + 1)
    (fun _ => .oomDuringSave (FileData.text "corrupt")) "out"
    [("pytorch_model-00001-of-00002.bin", [("k", (0 : Nat))]),
      ("pytorch_model-00002-of-00002.bin", [("q", 1)])]
    (some ⟨8, [("k", "pytorch_model-00001-of-00002.bin"),
      ("q", "pytorch_model-00002-of-00002.bin")]⟩) []
    (by decide) (by decide) "pytorch_model-00001-of-00002.bin"


end RwkvConvert
